import Mathlib

/-!
Verification of the Gantt timeline engine against its specification.

Pixel quantities are modelled as rationals (`ℚ`), an exact model of the
JavaScript number arithmetic on the values arising here.  Calendar dates are
modelled as integers (day numbers or ticks), as noted at each definition.
Loops of the source are embedded as fuel-indexed recursions; every theorem
that depends on a loop's exit condition goes through an explicit
fuel-adequacy lemma, so the stated results are about the loop's actual
fixpoint, not an artifact of the fuel.
-/

/-- JavaScript truncation toward zero of a finite number, as used by the
`%` operator: `trunc q` is `⌈q⌉` for negative `q` and `⌊q⌋` otherwise. -/
def jstrunc (q : ℚ) : ℤ :=
  if q < 0 then ⌈q⌉ else ⌊q⌋

/-- JavaScript remainder `a % b` for finite `b ≠ 0`:
`a - b * trunc (a / b)`; the result carries the sign of `a`. -/
def jsmod (a b : ℚ) : ℚ :=
  a - b * jstrunc (a / b)

/-- `Gantt.get_ignored_region(pos, drn)` (src/index.ts lines 1772-1782):
with `drn = 1` keeps the ignored column starts `val` with
`pos > val && pos <= val + column_width`; any other `drn` keeps those with
`pos >= val && pos < val + column_width`. -/
def get_ignored_region (ign : List ℚ) (cw : ℚ) (pos : ℚ) (drn : ℚ) : List ℚ :=
  if drn = 1 then
    ign.filter (fun v => decide (v < pos ∧ pos ≤ v + cw))
  else
    ign.filter (fun v => decide (v ≤ pos ∧ pos < v + cw))

/-- The `while (ignored_regions.length)` loop of `Gantt.get_snap_position`
(src/index.ts lines 1763-1768), fuel-indexed.  One iteration moves
`final_pos` a full column in direction `drn`, re-tests, and moves back
(returning the previous position) when the test comes up empty — the loop
variable is then empty, so the `while` exits. -/
def snap_clamp (ign : List ℚ) (cw drn : ℚ) : ℕ → ℚ → ℚ
  | 0, pos => pos
  | fuel + 1, pos =>
    if get_ignored_region ign cw pos drn = [] then pos
    else
      if get_ignored_region ign cw (pos + cw * drn) drn = [] then pos
      else snap_clamp ign cw drn fuel (pos + cw * drn)

/-- `Gantt.get_snap_position(dx, ox)` (src/index.ts lines 1739-1770).
`ul` is the `unit_length` the source derives from the snap setting via
`date_utils.convert_scales` (that helper is not in the sources, so the
derived number is taken as a parameter); the snap increment is
`column_width / unit_length`.  The fuel `ign.length` is adequate for the
clamp loop (see the fuel-adequacy lemmas below). -/
def get_snap_position (ign : List ℚ) (cw ul : ℚ) (dx ox : ℚ) : ℚ :=
  let inc := cw / ul
  let rem := jsmod dx inc
  let final_dx := dx - rem + (if rem < inc * 2 then 0 else inc)
  let drn : ℚ := if final_dx > 0 then 1 else -1
  snap_clamp ign cw drn ign.length (ox + final_dx) - ox

theorem jsmod_lt {a b : ℚ} (hb : 0 < b) : jsmod a b < b := by
  unfold jsmod jstrunc
  have key : b * (a / b) = a := mul_div_cancel₀ a hb.ne'
  split
  · have h1 : (a / b : ℚ) ≤ ⌈a / b⌉ := Int.le_ceil _
    nlinarith [mul_le_mul_of_nonneg_left h1 hb.le]
  · have h2 : a / b < ⌊a / b⌋ + 1 := Int.lt_floor_add_one _
    nlinarith [mul_lt_mul_of_pos_left h2 hb]

theorem neg_lt_jsmod {a b : ℚ} (hb : 0 < b) : -b < jsmod a b := by
  unfold jsmod jstrunc
  have key : b * (a / b) = a := mul_div_cancel₀ a hb.ne'
  split
  · have h2 : (⌈a / b⌉ : ℚ) < a / b + 1 := Int.ceil_lt_add_one _
    nlinarith [mul_lt_mul_of_pos_left h2 hb]
  · have h1 : (⌊a / b⌋ : ℚ) ≤ a / b := Int.floor_le _
    nlinarith [mul_le_mul_of_nonneg_left h1 hb.le]

/-- C9: membership in the ignored-region lookup.  In the forward direction
(`drn = 1`) a column start `s` matches exactly when
`pos ∈ (s, s + column_width]`; in the backward direction exactly when
`pos ∈ [s, s + column_width)`. -/
theorem c9_ignored_region_boundaries (ign : List ℚ) (cw pos s : ℚ) :
    (s ∈ get_ignored_region ign cw pos 1 ↔ s ∈ ign ∧ s < pos ∧ pos ≤ s + cw) ∧
    (s ∈ get_ignored_region ign cw pos (-1) ↔ s ∈ ign ∧ s ≤ pos ∧ pos < s + cw) := by
  constructor
  · simp [get_ignored_region, List.mem_filter, and_assoc]
  · rw [get_ignored_region, if_neg (by norm_num)]
    simp [List.mem_filter, and_assoc]

/-- C2 (counterexample): with `column_width = 45`, `unit_length = 1`, no
ignored columns, origin `0` and delta `44`, the remainder `44` is at least
half the snap increment `45`, so the claim demands rounding up to `45`;
the code returns `0`. -/
theorem c2_counterexample :
    get_snap_position [] 45 1 44 0 = 0 ∧
    (45 : ℚ) / 1 / 2 ≤ jsmod 44 (45 / 1) ∧
    (0 : ℚ) ≠ 44 - jsmod 44 (45 / 1) + 45 / 1 := by
  refine ⟨?_, by norm_num [jsmod, jstrunc], by norm_num [jsmod, jstrunc]⟩
  norm_num [get_snap_position, jsmod, jstrunc, snap_clamp]

/-- C2 (amended): the snap function never rounds up: the round-up branch
compares the remainder against twice the increment (not half of it), and
the remainder is always strictly below the increment, so the delta is
always truncated toward zero — `dx - (dx % increment)`.  Stated away from
ignored columns, which are the subject of the clamp loop, not of the
rounding step. -/
theorem c2_snap_truncates (cw ul dx ox : ℚ) (hcw : 0 < cw) (hul : 0 < ul) :
    get_snap_position [] cw ul dx ox = dx - jsmod dx (cw / ul) := by
  have hinc : 0 < cw / ul := div_pos hcw hul
  have hrem : jsmod dx (cw / ul) < cw / ul * 2 := (jsmod_lt hinc).trans (by linarith)
  unfold get_snap_position
  simp only [List.length_nil, snap_clamp, if_pos hrem]
  ring

theorem c2_witness :
    (0 : ℚ) < 45 ∧ (0 : ℚ) < 1 ∧
    get_snap_position [] 45 1 44 0 = 44 - jsmod 44 (45 / 1) :=
  ⟨by norm_num, by norm_num, c2_snap_truncates 45 1 44 0 (by norm_num) (by norm_num)⟩

/-- The geometry of one rendered bar: its `x` attribute and `width`
attribute, as read back by the `getX`/`getWidth` helpers. -/
structure BarGeom where
  x : ℚ
  width : ℚ

/-- The `width` half of `Bar.update_bar_position` (src/bar.ts lines
507-510): a width is applied only when present and positive. -/
def apply_width (b : BarGeom) : Option ℚ → BarGeom
  | some w => if w > 0 then { b with width := w } else b
  | none => b

/-- `Bar.update_bar_position({x, width})` (src/bar.ts lines 491-523).
`store` resolves a dependency id to that predecessor bar's current
geometry.  When an `x` is supplied, `valid_x` folds
`prev && x >= curr` over the predecessors' `$bar.getX()` values; an
invalid `x` aborts the whole update (the early `return` also skips the
width change). -/
def update_bar_position (store : String → BarGeom) (deps : List String)
    (b : BarGeom) (x? width? : Option ℚ) : BarGeom :=
  match x? with
  | some xv =>
    if deps.all (fun d => decide ((store d).x ≤ xv)) then
      apply_width { b with x := xv } width?
    else b
  | none => apply_width b width?

/-- C1 (counterexample): a predecessor bar occupying `[0, 100)` and a
successor dragged to `x = 50`: the new left edge is strictly inside the
predecessor (before its right edge `100`), yet the code accepts the move
because it only compares against the predecessor's left edge `0`. -/
theorem c1_counterexample :
    (update_bar_position (fun _ => ⟨0, 100⟩) ["p"] ⟨200, 50⟩ (some 50) none).x = 50 ∧
    (50 : ℚ) < (0 : ℚ) + 100 := by
  constructor
  · norm_num [update_bar_position, apply_width, List.all]
  · norm_num

/-- C1 (amended): during a drag, a position update with a new `x` is
applied exactly when the new left edge is `≥` every predecessor bar's
current left edge (its `x`, not its right edge `x + width`); otherwise the
whole update for that frame is rejected and the geometry keeps its prior
position. -/
theorem c1_left_edge_gate (store : String → BarGeom) (deps : List String)
    (b : BarGeom) (xv : ℚ) (w? : Option ℚ) :
    (update_bar_position store deps b (some xv) w?).x =
      if ∀ d ∈ deps, (store d).x ≤ xv then xv else b.x := by
  have hw : ∀ c : BarGeom, (apply_width c w?).x = c.x := by
    intro c
    cases w? with
    | none => rfl
    | some w =>
      simp only [apply_width]
      split <;> rfl
  by_cases h : ∀ d ∈ deps, (store d).x ≤ xv
  · have hall : (deps.all fun d => decide ((store d).x ≤ xv)) = true := by
      simpa [List.all_eq_true] using h
    simp only [update_bar_position, hall, if_true, hw, if_pos h]
  · have hall : ¬((deps.all fun d => decide ((store d).x ≤ xv)) = true) := by
      simpa [List.all_eq_true] using h
    simp only [update_bar_position, if_neg hall, if_neg h]

/-- The `while` loop of `Bar.calculate_progress_width` (src/bar.ts lines
274-279), fuel-indexed: while the progress edge falls in an ignored region
(forward test), push it one full column forward. -/
def progress_clamp (ign : List ℚ) (cw : ℚ) : ℕ → ℚ → ℚ
  | 0, pos => pos
  | fuel + 1, pos =>
    if get_ignored_region ign cw pos 1 = [] then pos
    else progress_clamp ign cw fuel (pos + cw)

/-- `Bar.calculate_progress_width` (src/bar.ts lines 253-282): the width
ignored inside the bar is removed before scaling by `progress/100`, the
width ignored inside the resulting progress segment is added back, and the
edge is then pushed out of ignored regions column by column. -/
def calculate_progress_width (ign : List ℚ) (cw : ℚ) (x width progress : ℚ) : ℚ :=
  let ignored_end := x + width
  let total_ignored_area :=
    (ign.countP (fun v => decide (x ≤ v ∧ v < ignored_end)) : ℚ) * cw
  let pw0 := (width - total_ignored_area) * progress / 100
  let progress_end := x + pw0
  let total_ignored_progress :=
    (ign.countP (fun v => decide (x ≤ v ∧ v < progress_end)) : ℚ) * cw
  progress_clamp ign cw ign.length (x + (pw0 + total_ignored_progress)) - x

theorem countP_lt_of_mem_not {α : Type} {l : List α} {p q : α → Bool}
    (himp : ∀ v ∈ l, q v = true → p v = true) {a : α} (ha : a ∈ l)
    (hqa : ¬q a = true) (hpa : p a = true) :
    l.countP q < l.countP p := by
  induction l with
  | nil => cases ha
  | cons b t ih =>
    rw [List.countP_cons, List.countP_cons]
    rcases List.mem_cons.1 ha with rfl | hat
    · have hle : t.countP q ≤ t.countP p :=
        List.countP_mono_left (fun v hv => himp v (List.mem_cons_of_mem _ hv))
      simp only [hpa, if_true, Bool.not_eq_true] at *
      simp [hqa]
      omega
    · have hlt := ih (fun v hv h => himp v (List.mem_cons_of_mem _ hv) h) hat
      have hb : (if q b = true then 1 else 0) ≤ (if p b = true then 1 else 0) := by
        by_cases hqb : q b = true
        · simp [hqb, himp b (List.mem_cons_self b t) hqb]
        · simp [hqb]
      omega

/-- A nonempty forward ignored-region lookup yields a matching column. -/
theorem exists_of_region_ne_nil {ign : List ℚ} {cw pos : ℚ}
    (h : get_ignored_region ign cw pos 1 ≠ []) :
    ∃ v ∈ ign, v < pos ∧ pos ≤ v + cw := by
  unfold get_ignored_region at h
  rw [if_pos rfl] at h
  rcases List.exists_mem_of_ne_nil _ h with ⟨v, hv⟩
  rcases List.mem_filter.1 hv with ⟨hmem, hcond⟩
  exact ⟨v, hmem, of_decide_eq_true hcond⟩

/-- A nonempty backward ignored-region lookup yields a matching column. -/
theorem exists_of_region_bwd_ne_nil {ign : List ℚ} {cw pos : ℚ}
    (h : get_ignored_region ign cw pos (-1) ≠ []) :
    ∃ v ∈ ign, v ≤ pos ∧ pos < v + cw := by
  unfold get_ignored_region at h
  rw [if_neg (by norm_num)] at h
  rcases List.exists_mem_of_ne_nil _ h with ⟨v, hv⟩
  rcases List.mem_filter.1 hv with ⟨hmem, hcond⟩
  exact ⟨v, hmem, of_decide_eq_true hcond⟩

theorem region_fwd_empty_of_countP_zero {ign : List ℚ} {cw pos : ℚ}
    (h0 : ign.countP (fun v => decide (pos ≤ v + cw)) = 0) :
    get_ignored_region ign cw pos 1 = [] := by
  have hall := List.countP_eq_zero.1 h0
  unfold get_ignored_region
  rw [if_pos rfl]
  refine List.filter_eq_nil_iff.2 ?_
  intro v hv
  have hnot : ¬pos ≤ v + cw := by simpa using hall v hv
  simp only [decide_eq_true_eq, not_and]
  exact fun _ => hnot

theorem region_bwd_empty_of_countP_zero {ign : List ℚ} {cw pos : ℚ}
    (h0 : ign.countP (fun v => decide (v ≤ pos)) = 0) :
    get_ignored_region ign cw pos (-1) = [] := by
  have hall := List.countP_eq_zero.1 h0
  unfold get_ignored_region
  rw [if_neg (by norm_num)]
  refine List.filter_eq_nil_iff.2 ?_
  intro v hv
  have hnot : ¬v ≤ pos := by simpa using hall v hv
  simp only [decide_eq_true_eq, not_and]
  exact fun hc => absurd hc hnot

theorem countP_fwd_decrease {ign : List ℚ} {cw pos : ℚ} (hcw : 0 < cw)
    (hreg : get_ignored_region ign cw pos 1 ≠ []) :
    ign.countP (fun v => decide (pos + cw ≤ v + cw)) <
      ign.countP (fun v => decide (pos ≤ v + cw)) := by
  rcases exists_of_region_ne_nil hreg with ⟨a, ha, halt, hale⟩
  refine countP_lt_of_mem_not ?_ ha ?_ ?_
  · intro v _ hq
    have := of_decide_eq_true hq
    exact decide_eq_true (by linarith)
  · simp only [decide_eq_true_eq]
    intro hc
    linarith
  · exact decide_eq_true hale

theorem countP_bwd_decrease {ign : List ℚ} {cw pos : ℚ} (hcw : 0 < cw)
    (hreg : get_ignored_region ign cw pos (-1) ≠ []) :
    ign.countP (fun v => decide (v ≤ pos - cw)) <
      ign.countP (fun v => decide (v ≤ pos)) := by
  rcases exists_of_region_bwd_ne_nil hreg with ⟨a, ha, hale, halt⟩
  refine countP_lt_of_mem_not ?_ ha ?_ ?_
  · intro v _ hq
    have := of_decide_eq_true hq
    exact decide_eq_true (by linarith)
  · simp only [decide_eq_true_eq]
    intro hc
    linarith
  · exact decide_eq_true hale

/-- Fuel adequacy for the forward clamp: when the fuel dominates the
number of ignored columns whose interval end is still ahead of the
position, the clamp lands outside every forward interval. -/
theorem progress_clamp_lands_outside (ign : List ℚ) (cw : ℚ) (hcw : 0 < cw) :
    ∀ fuel pos, ign.countP (fun v => decide (pos ≤ v + cw)) ≤ fuel →
      get_ignored_region ign cw (progress_clamp ign cw fuel pos) 1 = [] := by
  intro fuel
  induction fuel with
  | zero =>
    intro pos hb
    unfold progress_clamp
    exact region_fwd_empty_of_countP_zero (Nat.le_zero.1 hb)
  | succ n ih =>
    intro pos hb
    by_cases hreg : get_ignored_region ign cw pos 1 = []
    · unfold progress_clamp
      rw [if_pos hreg]
      exact hreg
    · unfold progress_clamp
      rw [if_neg hreg]
      apply ih
      have hstep := countP_fwd_decrease hcw hreg
      omega

theorem add_sub_self_left (x y : ℚ) : x + (y - x) = y := by ring

/-- C4: after `calculate_progress_width`, the progress end position
`x + progress_width` never lies inside an ignored pixel interval: the
final loop pushes the edge forward a full column at a time until the
forward ignored-region lookup comes up empty. -/
theorem c4_progress_end_not_ignored (ign : List ℚ) (cw x width progress : ℚ)
    (hcw : 0 < cw) :
    get_ignored_region ign cw
      (x + calculate_progress_width ign cw x width progress) 1 = [] := by
  simp only [calculate_progress_width]
  rw [add_sub_self_left]
  exact progress_clamp_lands_outside ign cw hcw ign.length _ (List.countP_le_length _)

theorem c4_witness :
    (0 : ℚ) < 45 ∧
    get_ignored_region [45] 45 (0 + calculate_progress_width [45] 45 0 90 50) 1 = [] :=
  ⟨by norm_num, c4_progress_end_not_ignored [45] 45 0 90 50 (by norm_num)⟩

/-- The snap clamp only ever shifts the position by whole columns in the
direction of travel. -/
theorem snap_clamp_shift (ign : List ℚ) (cw drn : ℚ) :
    ∀ fuel pos, ∃ m : ℕ, snap_clamp ign cw drn fuel pos = pos + m * (cw * drn) := by
  intro fuel
  induction fuel with
  | zero => exact fun pos => ⟨0, by simp [snap_clamp]⟩
  | succ n ih =>
    intro pos
    unfold snap_clamp
    by_cases h1 : get_ignored_region ign cw pos drn = []
    · rw [if_pos h1]
      exact ⟨0, by simp⟩
    · rw [if_neg h1]
      by_cases h2 : get_ignored_region ign cw (pos + cw * drn) drn = []
      · rw [if_pos h2]
        exact ⟨0, by simp⟩
      · rw [if_neg h2]
        rcases ih (pos + cw * drn) with ⟨m, hm⟩
        exact ⟨m + 1, by rw [hm]; push_cast; ring⟩

/-- A position from which the snap clamp does not move: either it is
outside every ignored interval, or the next column over is — in the latter
case one loop iteration steps forward and immediately reverts. -/
def SnapStable (ign : List ℚ) (cw drn pos : ℚ) : Prop :=
  get_ignored_region ign cw pos drn = [] ∨
    get_ignored_region ign cw (pos + cw * drn) drn = []

theorem snap_clamp_fix (ign : List ℚ) (cw drn : ℚ) {pos : ℚ}
    (h : SnapStable ign cw drn pos) :
    ∀ fuel, snap_clamp ign cw drn fuel pos = pos := by
  intro fuel
  cases fuel with
  | zero => simp [snap_clamp]
  | succ n =>
    unfold snap_clamp
    rcases h with h | h
    · rw [if_pos h]
    · by_cases h1 : get_ignored_region ign cw pos drn = []
      · rw [if_pos h1]
      · rw [if_neg h1, if_pos h]

/-- With adequate fuel the forward snap clamp always stops at a stable
position. -/
theorem snap_clamp_stable_fwd (ign : List ℚ) (cw : ℚ) (hcw : 0 < cw) :
    ∀ fuel pos, ign.countP (fun v => decide (pos ≤ v + cw)) ≤ fuel →
      SnapStable ign cw 1 (snap_clamp ign cw 1 fuel pos) := by
  intro fuel
  induction fuel with
  | zero =>
    intro pos hb
    exact Or.inl (region_fwd_empty_of_countP_zero (Nat.le_zero.1 hb))
  | succ n ih =>
    intro pos hb
    unfold snap_clamp
    by_cases h1 : get_ignored_region ign cw pos 1 = []
    · rw [if_pos h1]
      exact Or.inl h1
    · rw [if_neg h1]
      by_cases h2 : get_ignored_region ign cw (pos + cw * 1) 1 = []
      · rw [if_pos h2]
        exact Or.inr h2
      · rw [if_neg h2]
        apply ih
        have hstep := countP_fwd_decrease hcw h1
        have hrw : pos + cw * 1 = pos + cw := by ring
        rw [hrw]
        omega

/-- With adequate fuel the backward snap clamp always stops at a stable
position. -/
theorem snap_clamp_stable_bwd (ign : List ℚ) (cw : ℚ) (hcw : 0 < cw) :
    ∀ fuel pos, ign.countP (fun v => decide (v ≤ pos)) ≤ fuel →
      SnapStable ign cw (-1) (snap_clamp ign cw (-1) fuel pos) := by
  intro fuel
  induction fuel with
  | zero =>
    intro pos hb
    exact Or.inl (region_bwd_empty_of_countP_zero (Nat.le_zero.1 hb))
  | succ n ih =>
    intro pos hb
    unfold snap_clamp
    by_cases h1 : get_ignored_region ign cw pos (-1) = []
    · rw [if_pos h1]
      exact Or.inl h1
    · rw [if_neg h1]
      by_cases h2 : get_ignored_region ign cw (pos + cw * -1) (-1) = []
      · rw [if_pos h2]
        exact Or.inr h2
      · rw [if_neg h2]
        apply ih
        have hstep := countP_bwd_decrease hcw h1
        have hrw : pos + cw * -1 = pos - cw := by ring
        rw [hrw]
        omega

theorem jstrunc_intCast (k : ℤ) : jstrunc (k : ℚ) = k := by
  unfold jstrunc
  split <;> simp

theorem jsmod_intCast_mul (k : ℤ) (b : ℚ) (hb : b ≠ 0) :
    jsmod ((k : ℚ) * b) b = 0 := by
  unfold jsmod
  rw [mul_div_assoc, div_self hb, mul_one, jstrunc_intCast]
  ring

theorem sub_jsmod_eq (d b : ℚ) : d - jsmod d b = b * jstrunc (d / b) := by
  unfold jsmod
  ring

/-- When the remainder is below twice the increment (which is always the
case under a positive increment), `get_snap_position` reduces to its
truncated delta followed by the clamp loop. -/
theorem get_snap_position_eq (ign : List ℚ) (cw ul d ox : ℚ)
    (h : jsmod d (cw / ul) < cw / ul * 2) :
    get_snap_position ign cw ul d ox =
      snap_clamp ign cw (if d - jsmod d (cw / ul) > 0 then (1 : ℚ) else -1)
        ign.length (ox + (d - jsmod d (cw / ul))) - ox := by
  simp only [get_snap_position, if_pos h, add_zero]

/-- C5: snapping is idempotent whenever the snap increment
`column_width / unit_length` divides the column width (i.e. the
`unit_length` ratio is a positive whole number, as produced by the
supported snap settings): re-snapping an already snapped delta returns the
same delta. -/
theorem c5_snap_idempotent (ign : List ℚ) (cw dx ox : ℚ) (n : ℕ)
    (hn : 0 < n) (hcw : 0 < cw) :
    get_snap_position ign cw (n : ℚ) (get_snap_position ign cw (n : ℚ) dx ox) ox =
      get_snap_position ign cw (n : ℚ) dx ox := by
  have hnq : (0 : ℚ) < (n : ℚ) := by exact_mod_cast hn
  have hinc : 0 < cw / (n : ℚ) := div_pos hcw hnq
  have hcwn : cw = cw / (n : ℚ) * (n : ℚ) := by field_simp
  have hb1 : jsmod dx (cw / (n : ℚ)) < cw / (n : ℚ) * 2 :=
    (jsmod_lt hinc).trans (by linarith)
  have hfd_mul : dx - jsmod dx (cw / (n : ℚ)) =
      cw / (n : ℚ) * jstrunc (dx / (cw / (n : ℚ))) := sub_jsmod_eq dx (cw / (n : ℚ))
  by_cases hpos : dx - jsmod dx (cw / (n : ℚ)) > 0
  · have e1 : get_snap_position ign cw (n : ℚ) dx ox =
        snap_clamp ign cw 1 ign.length (ox + (dx - jsmod dx (cw / (n : ℚ)))) - ox := by
      rw [get_snap_position_eq ign cw (n : ℚ) dx ox hb1, if_pos hpos]
    obtain ⟨m, hm⟩ :=
      snap_clamp_shift ign cw 1 ign.length (ox + (dx - jsmod dx (cw / (n : ℚ))))
    have hd1 : get_snap_position ign cw (n : ℚ) dx ox =
        dx - jsmod dx (cw / (n : ℚ)) + m * cw := by
      rw [e1, hm]; ring
    have hK : dx - jsmod dx (cw / (n : ℚ)) + m * cw =
        ((jstrunc (dx / (cw / (n : ℚ))) + (m : ℤ) * (n : ℤ) : ℤ) : ℚ) * (cw / (n : ℚ)) := by
      have hne : ((n : ℚ)) ≠ 0 := hnq.ne'
      rw [hfd_mul]
      push_cast
      field_simp
      ring
    have hmod : jsmod (dx - jsmod dx (cw / (n : ℚ)) + m * cw) (cw / (n : ℚ)) = 0 := by
      rw [hK]
      exact jsmod_intCast_mul _ _ hinc.ne'
    have hd1pos : dx - jsmod dx (cw / (n : ℚ)) + m * cw > 0 := by
      have : (0 : ℚ) ≤ m * cw := mul_nonneg (by positivity) hcw.le
      linarith
    rw [hd1]
    rw [get_snap_position_eq ign cw (n : ℚ) _ ox (by rw [hmod]; linarith)]
    rw [hmod, sub_zero, if_pos hd1pos]
    have hoxd1 : ox + (dx - jsmod dx (cw / (n : ℚ)) + m * cw) =
        snap_clamp ign cw 1 ign.length (ox + (dx - jsmod dx (cw / (n : ℚ)))) := by
      rw [hm]; ring
    rw [hoxd1]
    have hstab := snap_clamp_stable_fwd ign cw hcw ign.length
      (ox + (dx - jsmod dx (cw / (n : ℚ)))) (List.countP_le_length _)
    rw [snap_clamp_fix ign cw 1 hstab ign.length, hm]
    ring
  · have e1 : get_snap_position ign cw (n : ℚ) dx ox =
        snap_clamp ign cw (-1) ign.length (ox + (dx - jsmod dx (cw / (n : ℚ)))) - ox := by
      rw [get_snap_position_eq ign cw (n : ℚ) dx ox hb1, if_neg hpos]
    obtain ⟨m, hm⟩ :=
      snap_clamp_shift ign cw (-1) ign.length (ox + (dx - jsmod dx (cw / (n : ℚ))))
    have hd1 : get_snap_position ign cw (n : ℚ) dx ox =
        dx - jsmod dx (cw / (n : ℚ)) - m * cw := by
      rw [e1, hm]; ring
    have hK : dx - jsmod dx (cw / (n : ℚ)) - m * cw =
        ((jstrunc (dx / (cw / (n : ℚ))) - (m : ℤ) * (n : ℤ) : ℤ) : ℚ) * (cw / (n : ℚ)) := by
      have hne : ((n : ℚ)) ≠ 0 := hnq.ne'
      rw [hfd_mul]
      push_cast
      field_simp
      ring
    have hmod : jsmod (dx - jsmod dx (cw / (n : ℚ)) - m * cw) (cw / (n : ℚ)) = 0 := by
      rw [hK]
      exact jsmod_intCast_mul _ _ hinc.ne'
    have hd1neg : ¬dx - jsmod dx (cw / (n : ℚ)) - m * cw > 0 := by
      have h1 : (0 : ℚ) ≤ m * cw := mul_nonneg (by positivity) hcw.le
      push_neg at hpos ⊢
      linarith
    rw [hd1]
    rw [get_snap_position_eq ign cw (n : ℚ) _ ox (by rw [hmod]; linarith)]
    rw [hmod, sub_zero, if_neg hd1neg]
    have hoxd1 : ox + (dx - jsmod dx (cw / (n : ℚ)) - m * cw) =
        snap_clamp ign cw (-1) ign.length (ox + (dx - jsmod dx (cw / (n : ℚ)))) := by
      rw [hm]; ring
    rw [hoxd1]
    have hstab := snap_clamp_stable_bwd ign cw hcw ign.length
      (ox + (dx - jsmod dx (cw / (n : ℚ)))) (List.countP_le_length _)
    rw [snap_clamp_fix ign cw (-1) hstab ign.length, hm]
    ring

theorem c5_witness :
    0 < 1 ∧ (0 : ℚ) < 45 ∧
    get_snap_position [45] 45 ((1 : ℕ) : ℚ)
        (get_snap_position [45] 45 ((1 : ℕ) : ℚ) 50 0) 0 =
      get_snap_position [45] 45 ((1 : ℕ) : ℚ) 50 0 :=
  ⟨by decide, by norm_num, c5_snap_idempotent [45] 45 50 0 1 (by decide) (by norm_num)⟩

/-- The forward dependency map built by `Gantt.setup_dependencies`
(src/index.ts lines 421-430): an association list from a task id to the
ids of the tasks that depend on it.  A JavaScript object lookup of a
missing key yields `undefined`, modelled by an `Option` result. -/
abbrev DepMap : Type := List (String × List String)

/-- `this.dependency_map[curr]` where `curr` itself may already be the
`undefined` value (`none`) produced by an earlier missing lookup: a
JavaScript object lookup coerces the key `undefined` to the string
"undefined", so the `none` case reads that literal key. -/
def dep_lookup (m : DepMap) : Option String → Option (List String)
  | none => List.lookup "undefined" m
  | some i => List.lookup i m

/-- `acc.concat(v)`: concatenating an array spreads its elements;
concatenating `undefined` appends the single element `undefined`. -/
def js_concat (acc : List (Option String)) : Option (List String) → List (Option String)
  | none => acc ++ [none]
  | some l => acc ++ l.map some

/-- One round of `get_all_dependent_tasks`: the `reduce` collecting
`dependency_map[curr]` for every `curr` in `to_process`. -/
def round_deps (m : DepMap) (tp : List (Option String)) : List (Option String) :=
  tp.foldl (fun acc curr => js_concat acc (dep_lookup m curr)) []

/-- The `while (to_process.length)` loop of `get_all_dependent_tasks`
(src/index.ts lines 1726-1734), fuel-indexed; the boolean reports whether
the loop actually finished (`to_process` emptied) rather than running out
of fuel. -/
def gadt_loop (m : DepMap) : ℕ → List (Option String) → List (Option String) →
    List (Option String) × Bool
  | _, out, [] => (out, true)
  | 0, out, _ :: _ => (out, false)
  | fuel + 1, out, tp =>
    let deps := round_deps m tp
    gadt_loop m fuel (out ++ deps) (deps.filter (fun d => decide (d ∉ tp)))

/-- `Gantt.get_all_dependent_tasks(task_id)` (src/index.ts lines
1723-1737); the final `filter(Boolean)` drops `undefined` entries and
empty-string ids. -/
def get_all_dependent_tasks (m : DepMap) (task_id : String) (fuel : ℕ) :
    List String × Bool :=
  let r := gadt_loop m fuel [] [some task_id]
  ((r.1.filterMap (fun x => x)).filter (fun s => decide (s ≠ "")), r.2)

/-- The diamond dependency graph: B and C depend on A, D depends on both
B and C. -/
def diamond : DepMap :=
  [("A", ["B", "C"]), ("B", ["D"]), ("C", ["D"])]

/-- C3 (counterexample): on the diamond graph the loop finishes, but the
result list contains `D` twice — the set difference is taken only against
the previous frontier, so a task reachable along two paths is emitted once
per path. -/
theorem c3_counterexample :
    (get_all_dependent_tasks diamond "A" 10).2 = true ∧
    (get_all_dependent_tasks diamond "A" 10).1.count "D" = 2 := by
  constructor
  · rfl
  · rfl

/-- C3 (amended): `get_all_dependent_tasks` emits a reachable id once per
frontier path that discovers it, not exactly once; on the diamond graph
A→B, A→C, B→D, C→D the finished loop returns `[B, C, D, D]`, with `D`
exactly twice. -/
theorem c3_diamond_emits_twice :
    (get_all_dependent_tasks diamond "A" 10).1 = ["B", "C", "D", "D"] ∧
    (get_all_dependent_tasks diamond "A" 10).2 = true := by
  constructor
  · rfl
  · rfl

/-- The dependency-graph edge relation: `b` depends on `a` (so `b` appears
in `a`'s entry of the dependency map). -/
def dep_edge (m : DepMap) (a b : String) : Prop :=
  b ∈ (List.lookup a m).getD []

/-- Endpoints of dependency-edge paths of a given length from the start
id. -/
inductive NPath (m : DepMap) (s : String) : ℕ → String → Prop
  | refl : NPath m s 0 s
  | step {k : ℕ} {a b : String} : NPath m s k a → dep_edge m a b → NPath m s (k + 1) b

/-- All ids that occur as a dependent of some id in the map. -/
def dep_values (m : DepMap) : List String :=
  (m.map Prod.snd).flatten

/-- One more than the number of distinct ids that can appear on a
dependency path from `s`. -/
def node_bound (m : DepMap) (s : String) : ℕ :=
  (s :: dep_values m).toFinset.card

theorem chain_snoc {α : Type} {r : α → α → Prop} :
    ∀ {l : List α} {hd a b : α}, List.Chain r hd l →
      (hd :: l).getLast? = some a → r a b → List.Chain r hd (l ++ [b]) := by
  intro l
  induction l with
  | nil =>
    intro hd a b _ hlast hr
    obtain rfl : hd = a := by simpa using hlast
    exact List.Chain.cons hr List.Chain.nil
  | cons c tl ih =>
    intro hd a b hch hlast hr
    cases hch with
    | cons hhd htl =>
      exact List.Chain.cons hhd (ih htl (by simpa using hlast) hr)

theorem mem_of_lookup_eq_some {m : DepMap} {a : String} {l : List String}
    (h : List.lookup a m = some l) : (a, l) ∈ m := by
  induction m with
  | nil => cases h
  | cons p t ih =>
    obtain ⟨x, y⟩ := p
    by_cases hax : a = x
    · subst hax
      simp only [List.lookup, beq_self_eq_true] at h
      obtain rfl : y = l := by simpa using h
      exact List.mem_cons_self _ _
    · have hne : (a == x) = false := beq_false_of_ne hax
      simp only [List.lookup, hne] at h
      exact List.mem_cons_of_mem _ (ih h)

theorem dep_edge_mem_values {m : DepMap} {a b : String} (h : dep_edge m a b) :
    b ∈ dep_values m := by
  unfold dep_edge at h
  cases hl : List.lookup a m with
  | none => rw [hl] at h; simp at h
  | some l =>
    rw [hl] at h
    simp only [Option.getD_some] at h
    have hmm : l ∈ m.map Prod.snd :=
      List.mem_map.2 ⟨(a, l), mem_of_lookup_eq_some hl, rfl⟩
    exact List.mem_flatten.2 ⟨l, hmm, h⟩

/-- Every dependency path unfolds into a node trail: consecutive nodes are
edge-related, the trail starts at `s`, ends at the endpoint of the path, and
all nodes are either `s` or occur as dependents in the map. -/
theorem npath_trail {m : DepMap} {s : String} {k : ℕ} {b : String}
    (h : NPath m s k b) :
    ∃ t : List String, t.length = k + 1 ∧ List.Chain' (dep_edge m) t ∧
      t.head? = some s ∧ t.getLast? = some b ∧
      ∀ x ∈ t, x = s ∨ x ∈ dep_values m := by
  induction h with
  | refl => exact ⟨[s], by simp, by simp, by simp, by simp, by simp⟩
  | @step k a b hp he ih =>
    rcases ih with ⟨t, ht1, ht2, ht3, ht4, ht5⟩
    rcases t with _ | ⟨hd, tl⟩
    · simp at ht1
    · refine ⟨hd :: tl ++ [b], by simpa using ht1, ?_, by simpa using ht3,
        List.getLast?_concat _, ?_⟩
      · rw [List.cons_append]
        exact chain_snoc ht2 ht4 he
      · intro x hx
        have hx3 : x = hd ∨ x ∈ tl ∨ x = b := by simpa using hx
        rcases hx3 with rfl | hx2 | rfl
        · exact ht5 x (List.mem_cons_self _ _)
        · exact ht5 x (List.mem_cons_of_mem _ hx2)
        · exact Or.inr (dep_edge_mem_values he)

theorem chain_append_cons_transGen {α : Type} {r : α → α → Prop} :
    ∀ (l1 : List α) (a b : α) (l2 : List α),
      List.Chain r a (l1 ++ b :: l2) → Relation.TransGen r a b := by
  intro l1
  induction l1 with
  | nil =>
    intro a b l2 h
    cases h with
    | cons hr _ => exact Relation.TransGen.single hr
  | cons c tl ih =>
    intro a b l2 h
    cases h with
    | cons hr h2 => exact Relation.TransGen.head hr (ih c b l2 h2)

theorem chain'_append_cons_right {α : Type} {r : α → α → Prop} :
    ∀ (t1 : List α) (x : α) (rest : List α),
      List.Chain' r (t1 ++ x :: rest) → List.Chain' r (x :: rest) := by
  intro t1
  induction t1 with
  | nil => exact fun x rest h => h
  | cons hd tl ih =>
    intro x rest h
    exact ih x rest (List.Chain'.tail h)

theorem chain'_head_reach {α : Type} {r : α → α → Prop} :
    ∀ (t1 : List α) (x s : α) (rest : List α),
      List.Chain' r (t1 ++ x :: rest) → (t1 ++ x :: rest).head? = some s →
      Relation.ReflTransGen r s x := by
  intro t1
  induction t1 with
  | nil =>
    intro x s rest _ hh
    obtain rfl : x = s := by simpa using hh
    exact Relation.ReflTransGen.refl
  | cons hd tl ih =>
    intro x s rest hch hh
    obtain rfl : hd = s := by simpa using hh
    have hch2 : List.Chain r hd (tl ++ x :: rest) := hch
    cases tl with
    | nil =>
      cases hch2 with
      | cons hr _ => exact Relation.ReflTransGen.single hr
    | cons hd2 tl2 =>
      cases hch2 with
      | cons hr hrest =>
        have htail : List.Chain' r ((hd2 :: tl2) ++ x :: rest) := hrest
        have ih2 := ih x hd2 rest htail (by simp)
        exact Relation.ReflTransGen.head hr ih2

theorem sublist_pair_decomp {α : Type} {x : α} :
    ∀ {t : List α}, [x, x].Sublist t → ∃ t1 t2 t3, t = t1 ++ x :: (t2 ++ x :: t3) := by
  intro t
  induction t with
  | nil => intro h; cases h
  | cons hd tl ih =>
    intro h
    cases h with
    | cons _ h2 =>
      rcases ih h2 with ⟨t1, t2, t3, rfl⟩
      exact ⟨hd :: t1, t2, t3, rfl⟩
    | cons₂ _ h2 =>
      have hx : x ∈ tl := List.singleton_sublist.1 h2
      rcases List.append_of_mem hx with ⟨u1, u2, rfl⟩
      exact ⟨[], u1, u2, by simp⟩

/-- Pigeonhole: when the reachable part of the dependency graph is acyclic,
every dependency path from `s` is shorter than the node bound — a longer
trail would repeat a node and close a cycle. -/
theorem npath_lt_bound {m : DepMap} {s : String}
    (hacyc : ∀ x, Relation.ReflTransGen (dep_edge m) s x →
      ¬Relation.TransGen (dep_edge m) x x) :
    ∀ (k : ℕ) (b : String), NPath m s k b → k < node_bound m s := by
  intro k b hp
  rcases npath_trail hp with ⟨t, htlen, htchain, hthead, _, htmem⟩
  by_contra hge
  push_neg at hge
  have hsub : ∀ x ∈ t, x ∈ (s :: dep_values m).toFinset := by
    intro x hx
    rcases htmem x hx with rfl | hxv
    · simp
    · simp [hxv]
  have hnd : ¬t.Nodup := by
    intro hnd
    have h1 : t.toFinset.card = t.length := List.toFinset_card_of_nodup hnd
    have h2 : t.toFinset ⊆ (s :: dep_values m).toFinset := fun x hx =>
      hsub x (List.mem_toFinset.1 hx)
    have h3 := Finset.card_le_card h2
    rw [h1, htlen] at h3
    unfold node_bound at hge
    omega
  rw [List.nodup_iff_count_le_one] at hnd
  push_neg at hnd
  rcases hnd with ⟨x, hx⟩
  have hsl : [x, x].Sublist t := by
    have h2 : 2 ≤ List.count x t := hx
    simpa using List.le_count_iff_replicate_sublist.1 h2
  rcases sublist_pair_decomp hsl with ⟨t1, t2, t3, rfl⟩
  have hcyc : Relation.TransGen (dep_edge m) x x := by
    have h1 : List.Chain' (dep_edge m) (x :: (t2 ++ x :: t3)) :=
      chain'_append_cons_right t1 x _ htchain
    exact chain_append_cons_transGen t2 x x t3 h1
  have hreach : Relation.ReflTransGen (dep_edge m) s x :=
    chain'_head_reach t1 x s _ htchain hthead
  exact hacyc x hreach hcyc

/-- The per-element contribution of one `to_process` entry to the round's
`reduce`. -/
def dep_step (m : DepMap) (c : Option String) : List (Option String) :=
  match dep_lookup m c with
  | none => [none]
  | some l => l.map some

theorem foldl_append_eq {α β : Type} (f : α → List β) :
    ∀ (tp : List α) (acc : List β),
      tp.foldl (fun a c => a ++ f c) acc = acc ++ (tp.map f).flatten := by
  intro tp
  induction tp with
  | nil => simp
  | cons hd tl ih =>
    intro acc
    simp only [List.foldl_cons, List.map_cons, List.flatten_cons, ih, List.append_assoc]

theorem round_deps_eq (m : DepMap) (tp : List (Option String)) :
    round_deps m tp = (tp.map (dep_step m)).flatten := by
  unfold round_deps
  have hfe : (fun (acc : List (Option String)) curr => js_concat acc (dep_lookup m curr)) =
      fun acc curr => acc ++ dep_step m curr := by
    funext acc curr
    cases hl : dep_lookup m curr <;> simp [js_concat, dep_step, hl]
  rw [hfe, foldl_append_eq]
  simp

theorem round_deps_some {m : DepMap} {tp : List (Option String)} {b : String}
    (hund : List.lookup "undefined" m = none)
    (h : some b ∈ round_deps m tp) :
    ∃ a, some a ∈ tp ∧ dep_edge m a b := by
  rw [round_deps_eq] at h
  rcases List.mem_flatten.1 h with ⟨l, hl, hbl⟩
  rcases List.mem_map.1 hl with ⟨c, hc, rfl⟩
  cases c with
  | none => simp [dep_step, dep_lookup, hund] at hbl
  | some a =>
    refine ⟨a, hc, ?_⟩
    cases hla : List.lookup a m with
    | none =>
      have hds : dep_step m (some a) = [none] := by simp [dep_step, dep_lookup, hla]
      rw [hds] at hbl
      simp at hbl
    | some l2 =>
      have hds : dep_step m (some a) = l2.map some := by simp [dep_step, dep_lookup, hla]
      rw [hds] at hbl
      rcases List.mem_map.1 hbl with ⟨b2, hb2, hbeq⟩
      obtain rfl : b2 = b := by simpa using hbeq
      unfold dep_edge
      rw [hla]
      simpa using hb2

theorem round_deps_all_none {m : DepMap} {tp : List (Option String)}
    (hund : List.lookup "undefined" m = none)
    (h : ∀ y ∈ tp, y = (none : Option String)) :
    ∀ y ∈ round_deps m tp, y = (none : Option String) := by
  intro y hy
  rw [round_deps_eq] at hy
  rcases List.mem_flatten.1 hy with ⟨l, hl, hyl⟩
  rcases List.mem_map.1 hl with ⟨c, hc, rfl⟩
  have hcn : c = none := h c hc
  subst hcn
  simpa [dep_step, dep_lookup, hund] using hyl

/-- The frontier loop finishes under a uniform bound on path lengths: the
frontier at round `k` only holds endpoints of length-`k` paths, so with the
path lengths capped the real ids die out, after which the residual
`undefined` entries are filtered away against the previous frontier and
the loop exits. -/
theorem gadt_loop_completes_aux (m : DepMap) (s : String) (N : ℕ)
    (hund : List.lookup "undefined" m = none)
    (hb : ∀ k b, NPath m s k b → k < N) :
    ∀ fuel k out tp, (∀ b, some b ∈ tp → NPath m s k b) → k ≤ N + 1 →
      N + 2 - k ≤ fuel → (gadt_loop m fuel out tp).2 = true := by
  intro fuel
  induction fuel with
  | zero =>
    intro k out tp hinv hk hf
    cases tp with
    | nil => rfl
    | cons hd tl => omega
  | succ f ih =>
    intro k out tp hinv hk hf
    cases tp with
    | nil => rfl
    | cons hd tl =>
      simp only [gadt_loop]
      by_cases hsome : ∃ b, some b ∈ hd :: tl
      · rcases hsome with ⟨b0, hb0⟩
        have hkN : k < N := hb k b0 (hinv b0 hb0)
        apply ih (k + 1)
        · intro b hbmem
          have hbdeps : some b ∈ round_deps m (hd :: tl) := (List.mem_filter.1 hbmem).1
          rcases round_deps_some hund hbdeps with ⟨a, ha, he⟩
          exact NPath.step (hinv a ha) he
        · omega
        · omega
      · push_neg at hsome
        have hall : ∀ y ∈ hd :: tl, y = (none : Option String) := by
          intro y hy
          cases y with
          | none => rfl
          | some b => exact absurd hy (hsome b)
        have hnone_mem : (none : Option String) ∈ hd :: tl :=
          hall hd (List.mem_cons_self _ _) ▸ List.mem_cons_self hd tl
        have hfilter : (round_deps m (hd :: tl)).filter
            (fun d => decide (d ∉ hd :: tl)) = [] := by
          apply List.filter_eq_nil_iff.2
          intro y hy
          have hyn : y = none := round_deps_all_none hund hall y hy
          subst hyn
          simp [hnone_mem]
        rw [hfilter]
        simp [gadt_loop]

/-- The dependency map from the JS key-coercion trap: some task depends on
a task whose id is the literal string "undefined", so the coerced lookup
of an `undefined` frontier entry finds real successors. -/
def undef_map : DepMap := [("A", ["B"]), ("undefined", ["A"])]

/-- A rank certifying that the id-graph of `undef_map` is acyclic. -/
def urank (s : String) : ℕ :=
  if s = "A" then 1 else if s = "B" then 2 else 0

theorem undef_map_edge_rank {a b : String} (h : dep_edge undef_map a b) :
    urank a < urank b := by
  unfold dep_edge at h
  cases hl : List.lookup a undef_map with
  | none => rw [hl] at h; simp at h
  | some l =>
    rw [hl] at h
    simp only [Option.getD_some] at h
    have hmem := mem_of_lookup_eq_some hl
    have hcases : (a = "A" ∧ l = ["B"]) ∨ (a = "undefined" ∧ l = ["A"]) := by
      simpa [undef_map, Prod.ext_iff] using hmem
    rcases hcases with ⟨rfl, rfl⟩ | ⟨rfl, rfl⟩
    · obtain rfl : b = "B" := by simpa using h
      decide
    · obtain rfl : b = "A" := by simpa using h
      decide

theorem undef_map_no_cycle : ∀ x, ¬Relation.TransGen (dep_edge undef_map) x x := by
  have hmono : ∀ x y, Relation.TransGen (dep_edge undef_map) x y →
      urank x < urank y := by
    intro x y h
    induction h with
    | single e => exact undef_map_edge_rank e
    | tail _ e ih => exact lt_trans ih (undef_map_edge_rank e)
  intro x hx
  exact lt_irrefl _ (hmono x x hx)

/-- On `undef_map` the frontier cycles forever:
`[A] → [B] → [undefined] → [A] → …` — the coerced lookup of the
`undefined` entry reads the "undefined" key and re-injects `A`. -/
theorem undef_map_loops : ∀ fuel : ℕ,
    (∀ out, (gadt_loop undef_map fuel out [some "A"]).2 = false) ∧
    (∀ out, (gadt_loop undef_map fuel out [some "B"]).2 = false) ∧
    (∀ out, (gadt_loop undef_map fuel out [none]).2 = false) := by
  intro fuel
  induction fuel with
  | zero => exact ⟨fun _ => rfl, fun _ => rfl, fun _ => rfl⟩
  | succ f ih =>
    refine ⟨fun out => ?_, fun out => ?_, fun out => ?_⟩
    · have hstep : gadt_loop undef_map (f + 1) out [some "A"] =
          gadt_loop undef_map f (out ++ [some "B"]) [some "B"] := rfl
      rw [hstep]
      exact ih.2.1 _
    · have hstep : gadt_loop undef_map (f + 1) out [some "B"] =
          gadt_loop undef_map f (out ++ [none]) [none] := rfl
      rw [hstep]
      exact ih.2.2 _
    · have hstep : gadt_loop undef_map (f + 1) out [none] =
          gadt_loop undef_map f (out ++ [some "A"]) [some "A"] := rfl
      rw [hstep]
      exact ih.1 _

/-- C10 (counterexample): on `undef_map` the dependency graph over task
ids reachable from "A" is acyclic (a rank certifies it globally), yet
`get_all_dependent_tasks` never finishes at any fuel: JavaScript coerces
the `undefined` frontier entry to the object key "undefined", whose entry
re-injects "A" and closes a cycle the id-graph does not have. -/
theorem c10_counterexample :
    (∀ x, Relation.ReflTransGen (dep_edge undef_map) "A" x →
      ¬Relation.TransGen (dep_edge undef_map) x x) ∧
    ¬∃ fuel : ℕ, (get_all_dependent_tasks undef_map "A" fuel).2 = true := by
  constructor
  · exact fun x _ => undef_map_no_cycle x
  · rintro ⟨fuel, hf⟩
    have hfalse := (undef_map_loops fuel).1 ([] : List (Option String))
    simp only [get_all_dependent_tasks] at hf
    rw [hfalse] at hf
    cases hf

/-- C10 (amended): when the dependency map has no literal "undefined" key
(no task id is the string "undefined") and the dependency graph reachable
from the starting id is acyclic, `get_all_dependent_tasks` terminates:
with fuel `node_bound + 2` the frontier-difference loop empties its
frontier and finishes.  Without the key restriction the JS coercion of the
`undefined` frontier entry to the key "undefined" can close a cycle and
the loop runs forever. -/
theorem c10_acyclic_terminates (m : DepMap) (s : String)
    (hund : List.lookup "undefined" m = none)
    (hacyc : ∀ x, Relation.ReflTransGen (dep_edge m) s x →
      ¬Relation.TransGen (dep_edge m) x x) :
    (get_all_dependent_tasks m s (node_bound m s + 2)).2 = true := by
  have hmain := gadt_loop_completes_aux m s (node_bound m s) hund
    (npath_lt_bound hacyc) (node_bound m s + 2) 0 [] [some s]
  simp only [get_all_dependent_tasks]
  apply hmain
  · intro b hbmem
    obtain rfl : b = s := by simpa using hbmem
    exact NPath.refl
  · omega
  · omega

theorem c10_witness :
    List.lookup "undefined" ([] : DepMap) = none ∧
    (∀ x, Relation.ReflTransGen (dep_edge []) "A" x →
      ¬Relation.TransGen (dep_edge []) x x) ∧
    (get_all_dependent_tasks [] "A" (node_bound [] "A" + 2)).2 = true := by
  have hedge : ∀ a b : String, ¬dep_edge [] a b := by
    intro a b h
    simp [dep_edge, List.lookup] at h
  have hnr : ∀ a b : String, ¬Relation.TransGen (dep_edge []) a b := by
    intro a b ht
    induction ht with
    | single h => exact hedge _ _ h
    | tail _ h2 _ => exact hedge _ _ h2
  have hac : ∀ x, Relation.ReflTransGen (dep_edge []) "A" x →
      ¬Relation.TransGen (dep_edge []) x x := fun x _ => hnr x x
  exact ⟨rfl, hac, c10_acyclic_terminates [] "A" rfl hac⟩

/-- Modelled from the spec: `date_utils.diff` at day granularity — dates
are day numbers and a day difference is exact.  (`date_utils` is imported
by the sources but its file is not among them.) -/
def diff_days (a b : ℤ) : ℤ := a - b

/-- `Bar.compute_x` (src/bar.ts lines 644-677) at unit=day over day-number
dates: `diff(task_start, gantt_start, unit) / step * column_width`. -/
def compute_x_day (cw step : ℚ) (task_start gantt_start : ℤ) : ℚ :=
  ((diff_days task_start gantt_start : ℚ) / step) * cw

/-- The day-walking loop of `Bar.compute_duration` (src/bar.ts lines
687-704): starting at `_start` and stepping one day while `d < _end`,
every day counts toward the total and the non-ignored ones toward the
actual duration.  The fuel is the iteration count `(e - s).toNat`. -/
def duration_walk (ignored : ℤ → Bool) : ℕ → ℤ → ℕ × ℕ
  | 0, _ => (0, 0)
  | n + 1, d =>
    let r := duration_walk ignored n (d + 1)
    (r.1 + 1, r.2 + (if ignored d then 0 else 1))

/-- `Bar.compute_duration` (src/bar.ts lines 686-721) at unit=day:
`convert_scales(days + 'd', 'day') = days` (modelled from the spec), so
the duration in units is `duration_in_days / step`. -/
def compute_duration_day (ignored : ℤ → Bool) (step : ℚ) (s e : ℤ) : ℚ :=
  ((duration_walk ignored (e - s).toNat s).1 : ℚ) / step

/-- `Bar.prepare_values` (src/bar.ts line 128):
`width = column_width * duration`; `prepare_values` re-reads the raw
`start`/`end` of the task, so no 24-hour extension applies here. -/
def bar_width_day (ignored : ℤ → Bool) (cw step : ℚ) (s e : ℤ) : ℚ :=
  cw * compute_duration_day ignored step s e

theorem duration_walk_false : ∀ (n : ℕ) (d : ℤ),
    duration_walk (fun _ => false) n d = (n, n) := by
  intro n
  induction n with
  | zero => intro d; rfl
  | succ k ih => intro d; simp [duration_walk, ih]

/-- C6: a task from 2024-01-01 (day number 19723) to 2024-01-05 (19727)
under unit=day, step=1, column_width=45, with the chart starting at the
task start, yields x = 0 and width = 4 * 45 = 180 pixels (the day walk
covers the four days Jan 1 through Jan 4). -/
theorem c6_day_scenario :
    compute_x_day 45 1 19723 19723 = 0 ∧
    bar_width_day (fun _ => false) 45 1 19723 19727 = 180 := by
  constructor
  · norm_num [compute_x_day, diff_days]
  · simp only [bar_width_day, compute_duration_day]
    rw [show ((19727 : ℤ) - 19723).toNat = 4 by decide, duration_walk_false]
    norm_num

/-- Modelled from the spec: `date_utils.diff` in a unit of `u` ticks, by
whole-unit truncation (floor division of the tick difference). -/
def diff_units (a b u : ℤ) : ℤ := (a - b) / u

/-- Modelled from the spec: `date_utils.add(d, qty, unit)` for a unit of
`u` ticks; the quantity may be fractional. -/
def add_units (d : ℤ) (qty : ℚ) (u : ℤ) : ℚ := (d : ℚ) + qty * (u : ℚ)

/-- `Bar.compute_x` (src/bar.ts lines 644-677) over tick dates. -/
def compute_x_ticks (cw step : ℚ) (u task_start gantt_start : ℤ) : ℚ :=
  ((diff_units task_start gantt_start u : ℚ) / step) * cw

/-- The `new_start_date` computation of `Bar.compute_start_end_date`
(src/bar.ts lines 596-604):
`add(gantt_start, getX() / column_width * step, unit)`. -/
def compute_start_date_ticks (cw step : ℚ) (u gantt_start : ℤ) (x : ℚ) : ℚ :=
  add_units gantt_start (x / cw * step) u

/-- C7: for chart-range dates (`s ≤ d`, chart start `s` aligned to the
unit), mapping a date to pixels and back yields the date truncated to the
configured unit — exactly `u * (d / u)` ticks — and the round trip is
within one unit below `d`. -/
theorem c7_roundtrip (cw step : ℚ) (u s d : ℤ) (hcw : cw ≠ 0) (hstep : step ≠ 0)
    (hu : 0 < u) (hsd : s ≤ d) (halign : u ∣ s) :
    compute_start_date_ticks cw step u s (compute_x_ticks cw step u d s) =
        ((u * (d / u) : ℤ) : ℚ) ∧
    compute_start_date_ticks cw step u s (compute_x_ticks cw step u d s) ≤ (d : ℚ) ∧
    (d : ℚ) - (u : ℚ) <
      compute_start_date_ticks cw step u s (compute_x_ticks cw step u d s) := by
  have hmain : compute_start_date_ticks cw step u s (compute_x_ticks cw step u d s) =
      ((s + u * ((d - s) / u) : ℤ) : ℚ) := by
    unfold compute_start_date_ticks compute_x_ticks add_units diff_units
    push_cast
    field_simp
    ring
  rcases halign with ⟨c, rfl⟩
  have hdiv : (d - u * c) / u + c = d / u := by
    rw [show d - u * c = d + u * (-c) by ring, Int.add_mul_ediv_left d (-c) hu.ne']
    ring
  have hZ : u * c + u * ((d - u * c) / u) = u * (d / u) := by
    linear_combination u * hdiv
  have hdef : d % u = d - u * (d / u) := Int.emod_def d u
  have hnn : 0 ≤ d % u := Int.emod_nonneg d hu.ne'
  have hltu : d % u < u := Int.emod_lt_of_pos d hu
  refine ⟨?_, ?_, ?_⟩
  · rw [hmain, hZ]
  · rw [hmain, hZ]
    have hb1 : u * (d / u) ≤ d := by linarith
    exact_mod_cast hb1
  · rw [hmain, hZ]
    have hb2 : d - u < u * (d / u) := by linarith
    exact_mod_cast hb2

theorem c7_witness :
    (45 : ℚ) ≠ 0 ∧ (1 : ℚ) ≠ 0 ∧ (0 : ℤ) < 24 ∧ (48 : ℤ) ≤ 100 ∧ (24 : ℤ) ∣ 48 ∧
    compute_start_date_ticks 45 1 24 48 (compute_x_ticks 45 1 24 100 48) =
      ((24 * ((100 : ℤ) / 24) : ℤ) : ℚ) :=
  ⟨by norm_num, by norm_num, by decide, by decide, by decide,
    (c7_roundtrip 45 1 24 48 100 (by norm_num) (by norm_num)
      (by decide) (by decide) (by decide)).1⟩

/-- Milliseconds per day, for the tick-date model. -/
def DAY_MS : ℤ := 86400000

/-- Milliseconds per (fixed-length) model year. -/
def YEAR_MS : ℤ := 31536000000

/-- The state of a raw `task.end` as JavaScript sees it: strictly
`undefined`, present but falsy (e.g. the empty string), or present and
parsed to ticks.  The distinction matters: `=== undefined` gates the
duration derivation, while `!task.end` also rejects a falsy value. -/
inductive JsEnd where
  | undef : JsEnd
  | falsy : JsEnd
  | date (e : ℤ) : JsEnd

/-- A raw input task after date parsing: `start` as resolved ticks when
present and truthy, `end` in its JavaScript shape, `duration` as the list
of parsed duration summands when the field is present (`none` entries mark
unparseable pieces, which the source skips). -/
structure TaskIn where
  start : Option ℤ
  endDate : JsEnd
  duration : Option (List (Option ℤ))

/-- The end-resolution step of `Gantt.setup_tasks` (src/index.ts lines
344-360): only a strictly `undefined` end with a present duration is
derived from the start plus the parsed duration summands
(`task.end === undefined && task.duration !== undefined`, line 345); after
that, `if (!task.end)` (line 357) rejects an end that is still undefined
or was present but falsy. -/
def resolve_end (t : TaskIn) : Option ℤ :=
  match t.endDate with
  | JsEnd.date e => some e
  | JsEnd.falsy => none
  | JsEnd.undef =>
    match t.start, t.duration with
    | some s0, some ds => some (ds.foldl (fun e d => e + d.getD 0) s0)
    | _, _ => none

/-- Modelled from the spec: `date_utils.diff(e, s, 'year')` as the exact
fraction of a model year. -/
def diff_years (a b : ℤ) : ℚ := ((a - b : ℤ) : ℚ) / (YEAR_MS : ℚ)

/-- The per-task validation of `Gantt.setup_tasks` (src/index.ts lines
334-417): reject a missing start, a missing end (after duration
resolution), an end before the start, and a span of more than ten years;
otherwise keep the task, extending a midnight `_end` by 24 hours. -/
def process_task (t : TaskIn) : Option (ℤ × ℤ) :=
  match t.start with
  | none => none
  | some s =>
    match resolve_end t with
    | none => none
    | some e =>
      if diff_years e s < 0 then none
      else if diff_years e s > 10 then none
      else some (s, if e % DAY_MS = 0 then e + DAY_MS else e)

/-- The working set built by `Gantt.setup_tasks` (src/index.ts lines
334-419): the surviving tasks in input order. -/
def setup_tasks (ts : List TaskIn) : List (ℤ × ℤ) :=
  ts.filterMap process_task

theorem YEAR_MS_pos : (0 : ℚ) < (YEAR_MS : ℤ) := by norm_num [YEAR_MS]

theorem diff_years_neg_iff {e s : ℤ} : diff_years e s < 0 ↔ e < s := by
  unfold diff_years
  rw [div_lt_iff₀ YEAR_MS_pos, zero_mul]
  push_cast
  rw [sub_neg]
  exact Int.cast_lt

theorem diff_years_gt_ten_iff {e s : ℤ} :
    diff_years e s > 10 ↔ 10 * YEAR_MS < e - s := by
  unfold diff_years
  rw [gt_iff_lt, lt_div_iff₀ YEAR_MS_pos]
  exact_mod_cast Iff.rfl

theorem resolve_end_none_iff {t : TaskIn} {s : ℤ} (h : t.start = some s) :
    resolve_end t = none ↔
      t.endDate = JsEnd.falsy ∨ (t.endDate = JsEnd.undef ∧ t.duration = none) := by
  cases hE : t.endDate with
  | date e => simp [resolve_end, hE]
  | falsy => simp [resolve_end, hE]
  | undef =>
    cases hD : t.duration with
    | some ds => simp [resolve_end, hE, hD, h]
    | none => simp [resolve_end, hE, hD, h]

/-- C8 (counterexample): a task with a valid start, a present-but-falsy
end (the empty string) and a parseable duration of five days is excluded
by the code (`task.end !== undefined` skips the derivation and
`if (!task.end)` rejects it), although it is not missing its start, not
missing both end and duration, and has no resolved end at all (so no end
before start and no ten-year overrun) — the claim says it is retained. -/
theorem c8_counterexample :
    process_task ⟨some 0, JsEnd.falsy, some [some 432000000]⟩ = none ∧
    (⟨some 0, JsEnd.falsy, some [some 432000000]⟩ : TaskIn).start ≠ none ∧
    (⟨some 0, JsEnd.falsy, some [some 432000000]⟩ : TaskIn).duration ≠ none ∧
    resolve_end ⟨some 0, JsEnd.falsy, some [some 432000000]⟩ = none := by
  refine ⟨rfl, ?_, ?_, rfl⟩
  · simp
  · simp

/-- C8 (amended): `setup_tasks` is a total function on the task list and
drops exactly the invalid tasks: a task is excluded iff it misses its
start, or its end is present but falsy (regardless of any duration), or
its end is undefined with no duration to derive one from, or its resolved
end is before its start, or it spans more than ten years; every other task
is retained in the working set. -/
theorem c8_validation_filter (t : TaskIn) :
    (process_task t = none ↔
      t.start = none ∨ t.endDate = JsEnd.falsy ∨
      (t.endDate = JsEnd.undef ∧ t.duration = none) ∨
      (∃ s e, t.start = some s ∧ resolve_end t = some e ∧
        (e < s ∨ 10 * YEAR_MS < e - s))) ∧
    (∀ ts : List TaskIn, t ∈ ts → ∀ p, process_task t = some p →
      p ∈ setup_tasks ts) := by
  constructor
  · cases hS : t.start with
    | none => simp [process_task, hS]
    | some s =>
      cases hE : resolve_end t with
      | none =>
        have hne := (resolve_end_none_iff hS).1 hE
        have hL : process_task t = none := by simp [process_task, hS, hE]
        refine iff_of_true hL ?_
        rcases hne with h | h
        · exact Or.inr (Or.inl h)
        · exact Or.inr (Or.inr (Or.inl h))
      | some e =>
        simp only [process_task, hS, hE]
        by_cases h1 : diff_years e s < 0
        · rw [if_pos h1]
          simp only [true_iff]
          exact Or.inr (Or.inr (Or.inr
            ⟨s, e, rfl, rfl, Or.inl (diff_years_neg_iff.1 h1)⟩))
        · rw [if_neg h1]
          by_cases h2 : diff_years e s > 10
          · rw [if_pos h2]
            simp only [true_iff]
            exact Or.inr (Or.inr (Or.inr
              ⟨s, e, rfl, rfl, Or.inr (diff_years_gt_ten_iff.1 h2)⟩))
          · rw [if_neg h2]
            simp only [reduceCtorEq, false_iff]
            push_neg
            refine ⟨by simp, ?_, ?_, ?_⟩
            · intro hfalsy
              rw [(resolve_end_none_iff hS).2 (Or.inl hfalsy)] at hE
              cases hE
            · intro hundef hdnone
              rw [(resolve_end_none_iff hS).2 (Or.inr ⟨hundef, hdnone⟩)] at hE
              cases hE
            · intro s2 e2 hs2 he2
              obtain rfl : s2 = s := (Option.some_inj.1 hs2).symm
              obtain rfl : e2 = e := (Option.some_inj.1 he2).symm
              constructor
              · exact not_lt.1 fun hlt => h1 (diff_years_neg_iff.2 hlt)
              · exact not_lt.1 fun hgt => h2 (diff_years_gt_ten_iff.2 hgt)
  · intro ts hmem p hp
    exact List.mem_filterMap.2 ⟨t, hmem, hp⟩

theorem c8_witness :
    process_task ⟨some 0, JsEnd.date 86400000, none⟩ = some (0, 172800000) ∧
    ((⟨some 0, JsEnd.date 86400000, none⟩ : TaskIn) ∈
      [(⟨some 0, JsEnd.date 86400000, none⟩ : TaskIn)]) ∧
    ((0 : ℤ), (172800000 : ℤ)) ∈ setup_tasks [⟨some 0, JsEnd.date 86400000, none⟩] := by
  have hp : process_task (⟨some 0, JsEnd.date 86400000, none⟩ : TaskIn) =
      some ((0 : ℤ), (172800000 : ℤ)) := by
    norm_num [process_task, resolve_end, diff_years, YEAR_MS, DAY_MS]
  exact ⟨hp, List.mem_cons_self _ _,
    (c8_validation_filter _).2 _ (List.mem_cons_self _ _) _ hp⟩
